import Mathlib

/-!
Verification of the Roman-numeral adder in src/rome.py.

The program is a single pure function over Python strings, modelled here on
lists of characters.  Python string replacement (str.replace), Python sorted
with reverse=True, and the dynamic isinstance check are each given explicit
shallow embeddings below.
-/

set_option maxHeartbeats 1000000

/-- Model of Python str.replace with explicit fuel: scans left to right, and
on a match emits the replacement and continues after the matched pattern in
the input (the emitted replacement is never rescanned). -/
def pyReplaceF (pat rep : List Char) : ℕ → List Char → List Char
  | 0, s => s
  | fuel+1, s =>
    if pat = [] then s
    else if pat <+: s then rep ++ pyReplaceF pat rep fuel (s.drop pat.length)
    else
      match s with
      | [] => []
      | c :: cs => c :: pyReplaceF pat rep fuel cs

/-- Model of Python str.replace(pat, rep): replaces every occurrence of pat,
left to right, non-overlapping, with no rescanning of emitted text. -/
def pyReplace (pat rep s : List Char) : List Char :=
  pyReplaceF pat rep s.length s

/-- Shorthand for a run of n copies of the symbol 'X'. -/
def Xs (n : ℕ) : List Char := List.replicate n 'X'

/-- Shorthand for a run of n copies of the symbol 'V'. -/
def Vs (n : ℕ) : List Char := List.replicate n 'V'

/-- Shorthand for a run of n copies of the symbol 'I'. -/
def Is (n : ℕ) : List Char := List.replicate n 'I'

/-- Concatenation of n copies of a replacement string. -/
def reps (n : ℕ) (rep : List Char) : List Char := (List.replicate n rep).flatten

/-- Modelled from the spec: the value of a single Roman symbol (I is 1, V is 5,
X is 10); other characters carry no value. -/
def charValue (c : Char) : ℕ :=
  if c = 'I' then 1 else if c = 'V' then 5 else if c = 'X' then 10 else 0

/-- Sum of the symbol values of a string, reading it as an additive multiset. -/
def charSum (l : List Char) : ℕ := (l.map charValue).sum

/-- Modelled from the spec: the standard Roman-to-integer mapping for I, V, X
in which the subtractive pairs are exactly "IV" (4) and "IX" (9), as fixed by
the spec; every other symbol contributes its face value, scanning left to
right. -/
def romanValue : List Char → ℕ
  | [] => 0
  | [c] => charValue c
  | c1 :: c2 :: t =>
    if c1 = 'I' ∧ c2 = 'V' then 4 + romanValue t
    else if c1 = 'I' ∧ c2 = 'X' then 9 + romanValue t
    else charValue c1 + romanValue (c2 :: t)

/-- One-pass greedy expansion of the subtractive pairs "IX" and "IV" into
repeated copies of 'I'; reference function used to relate the expansion done
by the code to the Roman-to-integer mapping. -/
def expandG : List Char → List Char
  | [] => []
  | [c] => [c]
  | c1 :: c2 :: t =>
    if c1 = 'I' ∧ c2 = 'V' then Is 4 ++ expandG t
    else if c1 = 'I' ∧ c2 = 'X' then Is 9 ++ expandG t
    else c1 :: expandG (c2 :: t)

/-- The alphabet constant of src/rome.py line 1. -/
def ROMAN_NUMERALS : List Char := ['I', 'V', 'X']

/-- A Python value passed to add: either a string or a value of some other
type (the tag distinguishes different non-string values). -/
inductive PyVal where
  | str (s : List Char)
  | nonString (tag : ℕ)
deriving DecidableEq

/-- True exactly on string-typed values, modelling isinstance(x, str). -/
def PyVal.isStr : PyVal → Bool
  | .str _ => true
  | .nonString _ => false

/-- The single error kind the code can raise (ValueError in src/rome.py). -/
inductive RomeError where
  | valueError
deriving DecidableEq

/-- Expansion step of src/rome.py lines 6 and 7: replace every "IX" with nine
copies of 'I', then every "IV" with four copies of 'I'. -/
def simplify (s : List Char) : List Char :=
  pyReplace ['I', 'V'] (Is 4) (pyReplace ['I', 'X'] (Is 9) s)

/-- Descending order on characters as Python sorted(-, reverse=True) uses:
later codepoints first. -/
def descR (a b : Char) : Prop := b ≤ a

instance : DecidableRel descR := fun a b => (inferInstance : Decidable (b ≤ a))

instance : IsTotal Char descR := ⟨fun a b => (le_total b a).imp id id⟩

instance : IsTrans Char descR := ⟨fun _ _ _ h1 h2 => le_trans h2 h1⟩

instance : IsAntisymm Char descR := ⟨fun _ _ h1 h2 => le_antisymm h2 h1⟩

/-- Model of sorted(s, reverse=True) on src/rome.py line 14: the characters
arranged in non-increasing codepoint order. -/
def sortedDesc (l : List Char) : List Char := l.insertionSort descR

/-- Canonicalization chain of src/rome.py lines 16 to 20: six substitution
rules in sequence, then two whole-string corrections. -/
def canonicalise (l : List Char) : List Char :=
  let c1 := pyReplace (Is 10) ['X'] l
  let c2 := pyReplace (Is 9) ['I', 'X'] c1
  let c3 := pyReplace (Is 5) ['V'] c2
  let c4 := pyReplace ['V', 'V'] ['X'] c3
  let c5 := pyReplace (Is 4) ['I', 'V'] c4
  let c6 := pyReplace ['V', 'I', 'V'] ['I', 'X'] c5
  let c7 := if c6 = ['V', 'X'] then ['X', 'V'] else c6
  if c7 = ['V', 'I', 'X'] then ['X', 'I', 'V'] else c7

/-- The add function of src/rome.py lines 2 to 21. -/
def add (augend addend : PyVal) : Except RomeError (List Char) :=
  match augend, addend with
  | .str a, .str b =>
    let simple_augend := simplify a
    let simple_addend := simplify b
    let simple_sum := simple_augend ++ simple_addend
    if ∀ c ∈ simple_sum, c ∈ ROMAN_NUMERALS then
      .ok (canonicalise (sortedDesc simple_sum))
    else
      .error .valueError
  | _, _ => .error .valueError

/-- Modelled from the spec: the units part of a canonical Roman numeral. -/
def unitsRoman : ℕ → List Char
  | 1 => ['I']
  | 2 => ['I', 'I']
  | 3 => ['I', 'I', 'I']
  | 4 => ['I', 'V']
  | 5 => ['V']
  | 6 => ['V', 'I']
  | 7 => ['V', 'I', 'I']
  | 8 => ['V', 'I', 'I', 'I']
  | 9 => ['I', 'X']
  | _ => []

/-- Modelled from the spec: the canonical Roman numeral string for a value in
the supported range 1 to 39, using subtractive pairs only for 4 and 9 and
symbols otherwise in non-increasing value order. -/
def toRoman (n : ℕ) : List Char := Xs (n / 10) ++ unitsRoman (n % 10)

/-- Modelled from the spec: the canonicalization rule table, in the priority
order the spec lists. -/
def canonRules : List (List Char × List Char) :=
  [(Is 10, ['X']), (Is 9, ['I', 'X']), (Is 5, ['V']),
   (['V', 'V'], ['X']), (Is 4, ['I', 'V']), (['V', 'I', 'V'], ['I', 'X'])]

/-- Modelled from the spec: apply each canonicalization rule, in priority
order, as a full left-to-right replacement before moving to the next rule. -/
def applyRules (s : List Char) : List Char :=
  canonRules.foldl (fun acc rule => pyReplace rule.1 rule.2 acc) s

/-- Modelled from the spec: the two fixed whole-string post-corrections. -/
def postCorrect (s : List Char) : List Char :=
  if s = ['V', 'X'] then ['X', 'V']
  else if s = ['V', 'I', 'X'] then ['X', 'I', 'V']
  else s

/-- Tail of the canonicalization pipeline after the ten-I and nine-I rules,
as a function of the residual count r of single 'I' symbols. -/
def tailB (r : ℕ) : List Char := if r = 9 then ['I', 'X'] else Is r

/-- Tail of the canonicalization pipeline after the five-I rule. -/
def tailC (r : ℕ) : List Char :=
  if r = 9 then ['I', 'X'] else if 5 ≤ r then 'V' :: Is (r - 5) else Is r

/-- Length of the run of 'V' symbols reaching the double-V rule: the original
count v, plus the 'V' that the five-I rule emits when it lands directly after
the original run (no 'X' from the ten-I rule in between). -/
def runW (v q r : ℕ) : ℕ := if q = 0 ∧ 5 ≤ r ∧ r ≤ 8 then v + 1 else v

/-- Tail behind the 'V' run when the double-V rule fires. -/
def tailD (q r : ℕ) : List Char :=
  if q = 0 ∧ 5 ≤ r ∧ r ≤ 8 then Is (r - 5) else tailC r

/-- Tail of the canonicalization pipeline after the four-I rule. -/
def tailE (q r : ℕ) : List Char := if r = 4 then ['I', 'V'] else tailD q r

/-- The pairs of values on which the rule chain leaves a non-canonical result:
one units digit is 9 and the other lies in 5 to 8, except the tens-free sums
5 plus 9 and 6 plus 9, which the two whole-string post-corrections repair. -/
def badPair (m n : ℕ) : Prop :=
  ((m % 10 = 9 ∧ 5 ≤ n % 10 ∧ n % 10 ≤ 8) ∨ (n % 10 = 9 ∧ 5 ≤ m % 10 ∧ m % 10 ≤ 8))
  ∧ (10 ≤ m ∨ 10 ≤ n ∨ 16 ≤ m % 10 + n % 10)

instance (m n : ℕ) : Decidable (badPair m n) := by
  unfold badPair
  infer_instance

instance : DecidableEq RomeError := fun a b => by
  cases a; cases b; exact isTrue rfl

instance : DecidableEq (Except RomeError (List Char)) := fun a b =>
  match a, b with
  | .ok x, .ok y =>
    if h : x = y then isTrue (by rw [h]) else isFalse (by simpa using h)
  | .error x, .error y => isTrue (by cases x; cases y; rfl)
  | .ok _, .error _ => isFalse (by simp)
  | .error _, .ok _ => isFalse (by simp)

instance : DecidableEq (Except RomeError ℕ) := fun a b =>
  match a, b with
  | .ok x, .ok y =>
    if h : x = y then isTrue (by rw [h]) else isFalse (by simpa using h)
  | .error x, .error y => isTrue (by cases x; cases y; rfl)
  | .ok _, .error _ => isFalse (by simp)
  | .error _, .ok _ => isFalse (by simp)

theorem pre_nil {l : List Char} (h : l <+: ([] : List Char)) : l = [] := by
  obtain ⟨t, ht⟩ := h
  exact (List.append_eq_nil.mp ht).1

theorem cons_pre_cons {p c : Char} {ps cs : List Char} :
    (p :: ps) <+: (c :: cs) ↔ p = c ∧ ps <+: cs := by
  constructor
  · rintro ⟨t, ht⟩
    injection ht with h1 h2
    exact ⟨h1, t, h2⟩
  · rintro ⟨rfl, t, ht⟩
    exact ⟨t, by rw [List.cons_append, ht]⟩

theorem pyReplaceF_nil (pat rep : List Char) (f : ℕ) : pyReplaceF pat rep f [] = [] := by
  cases f with
  | zero => rfl
  | succ g =>
    by_cases hp : pat = []
    · simp [pyReplaceF, hp]
    · have hm : ¬ pat <+: ([] : List Char) := fun h => hp (pre_nil h)
      simp [pyReplaceF, hp, hm]

theorem pyReplaceF_fuel (pat rep : List Char) :
    ∀ f1 f2 s, s.length ≤ f1 → s.length ≤ f2 →
      pyReplaceF pat rep f1 s = pyReplaceF pat rep f2 s := by
  intro f1
  induction f1 with
  | zero =>
    intro f2 s h1 _
    have : s = [] := List.length_eq_zero.mp (Nat.le_zero.mp h1)
    subst this
    rw [pyReplaceF_nil, pyReplaceF_nil]
  | succ g ih =>
    intro f2 s h1 h2
    cases s with
    | nil => rw [pyReplaceF_nil, pyReplaceF_nil]
    | cons c cs =>
      cases f2 with
      | zero => simp at h2
      | succ h =>
        by_cases hp : pat = []
        · simp [pyReplaceF, hp]
        · by_cases hm : pat <+: (c :: cs)
          · have hlen : pat.length ≤ (c :: cs).length := hm.length_le
            have hplen : 1 ≤ pat.length := by
              cases pat with
              | nil => exact absurd rfl hp
              | cons q qs => simp
            simp only [pyReplaceF, if_neg hp, if_pos hm]
            rw [ih h ((c :: cs).drop pat.length)
                (by simp at h1 hlen ⊢; omega) (by simp at h2 hlen ⊢; omega)]
          · simp only [pyReplaceF, if_neg hp, if_neg hm]
            rw [ih h cs (by simp at h1 ⊢; omega) (by simp at h2 ⊢; omega)]

theorem pyReplace_nil (pat rep : List Char) : pyReplace pat rep [] = [] := rfl

theorem pyReplace_cons_no {pat : List Char} (rep : List Char) {c : Char} {cs : List Char}
    (hp : pat ≠ []) (hm : ¬ pat <+: (c :: cs)) :
    pyReplace pat rep (c :: cs) = c :: pyReplace pat rep cs := by
  simp only [pyReplace, List.length_cons, pyReplaceF, if_neg hp, if_neg hm]

theorem pyReplace_matched (pat rep t : List Char) (hp : pat ≠ []) :
    pyReplace pat rep (pat ++ t) = rep ++ pyReplace pat rep t := by
  have hplen : 1 ≤ pat.length := by
    cases pat with
    | nil => exact absurd rfl hp
    | cons q qs => simp
  have hm : pat <+: (pat ++ t) := ⟨t, rfl⟩
  have hlen : (pat ++ t).length = ((pat ++ t).length - 1) + 1 := by simp; omega
  rw [pyReplace, hlen]
  simp only [pyReplaceF, if_neg hp, if_pos hm, List.drop_left]
  rw [pyReplaceF_fuel pat rep _ t.length t (by simp; omega) le_rfl]
  rfl

theorem pyReplace_skip_run (p : Char) (ps rep : List Char) (c : Char)
    (hne : c ≠ p) (n : ℕ) (l : List Char) :
    pyReplace (p :: ps) rep (List.replicate n c ++ l) =
      List.replicate n c ++ pyReplace (p :: ps) rep l := by
  induction n with
  | zero => simp
  | succ m ih =>
    rw [List.replicate_succ, List.cons_append,
        pyReplace_cons_no rep (by simp) (by
          rw [cons_pre_cons]
          rintro ⟨h1, -⟩
          exact hne h1.symm), ih]
    rfl

theorem pyReplace_skip_one (p : Char) (ps rep : List Char) (c : Char)
    (hne : c ≠ p) (l : List Char) :
    pyReplace (p :: ps) rep (c :: l) = c :: pyReplace (p :: ps) rep l := by
  have h1 := pyReplace_skip_run p ps rep c hne 1 l
  simpa using h1

theorem reps_zero (rep : List Char) : reps 0 rep = [] := rfl

theorem reps_succ (m : ℕ) (rep : List Char) : reps (m + 1) rep = rep ++ reps m rep := by
  simp [reps, List.replicate_succ]

theorem reps_single (m : ℕ) (c : Char) : reps m [c] = List.replicate m c := by
  induction m with
  | zero => rfl
  | succ k ih => rw [reps_succ, ih, List.replicate_succ]; rfl

theorem not_replicate_pre (k : ℕ) (c : Char) (rest : List Char)
    (hhead : rest.head? ≠ some c) :
    ∀ m, m < k → ¬ (List.replicate k c <+: List.replicate m c ++ rest) := by
  intro m
  induction m generalizing k with
  | zero =>
    intro hmk h
    obtain ⟨k1, rfl⟩ : ∃ k1, k = k1 + 1 := ⟨k - 1, by omega⟩
    rw [List.replicate_succ] at h
    simp only [List.replicate_zero, List.nil_append] at h
    obtain ⟨t, ht⟩ := h
    cases rest with
    | nil => simp at ht
    | cons r rs =>
      injection ht with h1 _
      exact hhead (by rw [h1]; rfl)
  | succ m1 ih =>
    intro hmk h
    obtain ⟨k1, rfl⟩ : ∃ k1, k = k1 + 1 := ⟨k - 1, by omega⟩
    rw [List.replicate_succ, List.replicate_succ, List.cons_append, cons_pre_cons] at h
    exact ih k1 (by omega) h.2

theorem pyReplace_run (c : Char) (k : ℕ) (hk : 1 ≤ k) (rep : List Char)
    (rest : List Char) (hhead : rest.head? ≠ some c)
    (hrest : pyReplace (List.replicate k c) rep rest = rest) :
    ∀ n, pyReplace (List.replicate k c) rep (List.replicate n c ++ rest) =
      reps (n / k) rep ++ List.replicate (n % k) c ++ rest := by
  intro n
  induction n using Nat.strong_induction_on with
  | _ n ih =>
    have hpne : List.replicate k c ≠ [] := by
      intro h
      rw [List.replicate_eq_nil_iff] at h
      omega
    by_cases hkn : k ≤ n
    · have hsplit : List.replicate n c ++ rest
          = List.replicate k c ++ (List.replicate (n - k) c ++ rest) := by
        rw [← List.append_assoc, ← List.replicate_add]
        congr 2
        omega
      rw [hsplit, pyReplace_matched _ rep _ hpne, ih (n - k) (by omega)]
      have h1 : n / k = (n - k) / k + 1 := by
        rw [Nat.div_eq n k, if_pos ⟨by omega, hkn⟩]
      have h2 : n % k = (n - k) % k := Nat.mod_eq_sub_mod hkn
      rw [h1, h2, reps_succ]
      simp [List.append_assoc]
    · cases n with
      | zero => simpa [reps_zero] using hrest
      | succ m =>
        have hno2 : ¬ (List.replicate k c <+: c :: (List.replicate m c ++ rest)) := by
          rw [← List.cons_append, ← List.replicate_succ]
          exact not_replicate_pre k c rest hhead (m + 1) (by omega)
        rw [List.replicate_succ, List.cons_append, pyReplace_cons_no rep hpne hno2,
            ih m (by omega)]
        rw [Nat.div_eq_of_lt (by omega), Nat.div_eq_of_lt (by omega),
            Nat.mod_eq_of_lt (by omega), Nat.mod_eq_of_lt (by omega), reps_zero]
        simp [List.replicate_succ]

theorem Is_succ (n : ℕ) : Is (n + 1) = 'I' :: Is n := List.replicate_succ _ _

theorem Xs_succ (n : ℕ) : Xs (n + 1) = 'X' :: Xs n := List.replicate_succ _ _

theorem Vs_succ (n : ℕ) : Vs (n + 1) = 'V' :: Vs n := List.replicate_succ _ _

theorem romanValue_cons_cons {c1 c2 : Char} (t : List Char)
    (h : c1 ≠ 'I' ∨ (c2 ≠ 'V' ∧ c2 ≠ 'X')) :
    romanValue (c1 :: c2 :: t) = charValue c1 + romanValue (c2 :: t) := by
  rcases h with h | h
  · simp [romanValue, h]
  · simp [romanValue, h.1, h.2]

theorem romanValue_X_cons (l : List Char) : romanValue ('X' :: l) = 10 + romanValue l := by
  cases l with
  | nil => simp [romanValue, charValue]
  | cons c t =>
    rw [romanValue_cons_cons t (Or.inl (by decide))]
    simp [charValue]

theorem romanValue_V_cons (l : List Char) : romanValue ('V' :: l) = 5 + romanValue l := by
  cases l with
  | nil => simp [romanValue, charValue]
  | cons c t =>
    rw [romanValue_cons_cons t (Or.inl (by decide))]
    simp [charValue]

theorem romanValue_Xs_append (n : ℕ) (l : List Char) :
    romanValue (Xs n ++ l) = 10 * n + romanValue l := by
  induction n with
  | zero => simp [Xs]
  | succ m ih =>
    rw [Xs_succ, List.cons_append, romanValue_X_cons, ih]
    omega

theorem romanValue_Is (n : ℕ) : romanValue (Is n) = n := by
  induction n with
  | zero => simp [Is, romanValue]
  | succ m ih =>
    cases m with
    | zero => simp [Is, romanValue, charValue]
    | succ k =>
      rw [Is_succ, Is_succ, romanValue_cons_cons _ (Or.inr (by decide)), ← Is_succ, ih]
      simp [charValue]
      omega

theorem charSum_append (a b : List Char) : charSum (a ++ b) = charSum a + charSum b := by
  simp [charSum]

theorem charSum_cons (c : Char) (l : List Char) :
    charSum (c :: l) = charValue c + charSum l := by
  simp [charSum]

theorem charSum_Is (n : ℕ) : charSum (Is n) = n := by
  simp [charSum, Is, List.map_replicate, List.sum_replicate, charValue]

theorem charSum_Xs (n : ℕ) : charSum (Xs n) = 10 * n := by
  simp [charSum, Xs, List.map_replicate, List.sum_replicate, charValue]
  omega

theorem charSum_Vs (n : ℕ) : charSum (Vs n) = 5 * n := by
  simp [charSum, Vs, List.map_replicate, List.sum_replicate, charValue]
  omega

theorem charSum_expandG (s : List Char) : charSum (expandG s) = romanValue s := by
  induction s using expandG.induct with
  | case1 => simp [expandG, romanValue, charSum]
  | case2 c => simp [expandG, romanValue, charSum]
  | case3 c1 c2 t h ih =>
    obtain ⟨rfl, rfl⟩ := h
    rw [show expandG ('I' :: 'V' :: t) = Is 4 ++ expandG t by simp [expandG]]
    rw [charSum_append, charSum_Is, ih]
    simp [romanValue]
  | case4 c1 c2 t h1 h2 ih =>
    obtain ⟨rfl, rfl⟩ := h2
    rw [show expandG ('I' :: 'X' :: t) = Is 9 ++ expandG t by simp [expandG]]
    rw [charSum_append, charSum_Is, ih]
    simp [romanValue]
  | case5 c1 c2 t h1 h2 ih =>
    have he : expandG (c1 :: c2 :: t) = c1 :: expandG (c2 :: t) := by
      simp only [expandG]
      rw [if_neg h1, if_neg h2]
    rw [he, charSum_cons, ih, romanValue_cons_cons t]
    by_cases hc1 : c1 = 'I'
    · subst hc1
      exact Or.inr ⟨fun hv => h1 ⟨rfl, hv⟩, fun hx => h2 ⟨rfl, hx⟩⟩
    · exact Or.inl hc1

theorem head_ne_V_pyReplace_IX (s : List Char) (h : s.head? ≠ some 'V') :
    (pyReplace ['I', 'X'] (Is 9) s).head? ≠ some 'V' := by
  cases s with
  | nil => simp [pyReplace_nil]
  | cons c cs =>
    by_cases hm : ['I', 'X'] <+: (c :: cs)
    · obtain ⟨t, ht⟩ := hm
      rw [← ht, pyReplace_matched _ _ t (by decide)]
      simp [Is, List.replicate_succ]
    · rw [pyReplace_cons_no _ (by decide) hm]
      simpa using h

theorem pyReplace_IV_skip_Is (n : ℕ) (u : List Char) (h : u.head? ≠ some 'V') :
    pyReplace ['I', 'V'] (Is 4) (Is n ++ u) = Is n ++ pyReplace ['I', 'V'] (Is 4) u := by
  induction n with
  | zero => simp [Is]
  | succ m ih =>
    rw [Is_succ m, List.cons_append]
    have hm : ¬ (['I', 'V'] <+: 'I' :: (Is m ++ u)) := by
      rw [cons_pre_cons]
      rintro ⟨-, hpre⟩
      cases m with
      | zero =>
        simp only [Is, List.replicate_zero, List.nil_append] at hpre
        obtain ⟨t, ht⟩ := hpre
        cases u with
        | nil => simp at ht
        | cons x xs =>
          injection ht with hx _
          exact h (by rw [← hx]; rfl)
      | succ m1 =>
        rw [Is_succ m1, List.cons_append, cons_pre_cons] at hpre
        exact absurd hpre.1 (by decide)
    rw [pyReplace_cons_no _ (by decide) hm, ih]
    simp

theorem inf_tail {pat : List Char} {c : Char} {t : List Char}
    (h : ¬ pat <:+: (c :: t)) : ¬ pat <:+: t := by
  intro ⟨u, w, hu⟩
  exact h ⟨c :: u, w, by rw [← hu]; rfl⟩

theorem simplify_nil : simplify [] = [] := by
  simp [simplify, pyReplace_nil]

theorem simplify_single (c : Char) : simplify [c] = [c] := by
  have h1 : ¬ (['I', 'X'] <+: [c]) := by
    intro h
    have := h.length_le
    simp at this
  have h2 : ¬ (['I', 'V'] <+: [c]) := by
    intro h
    have := h.length_le
    simp at this
  rw [simplify, pyReplace_cons_no _ (by decide) h1, pyReplace_nil,
      pyReplace_cons_no _ (by decide) h2, pyReplace_nil]

theorem simplify_eq_expandG : ∀ s, ¬ (['I', 'X', 'V'] <:+: s) → simplify s = expandG s := by
  have main : ∀ n s, s.length ≤ n → ¬ (['I', 'X', 'V'] <:+: s) → simplify s = expandG s := by
    intro n
    induction n with
    | zero =>
      intro s hlen _
      have hs : s = [] := List.length_eq_zero.mp (Nat.le_zero.mp hlen)
      subst hs
      rw [simplify_nil]
      rfl
    | succ N ih =>
      intro s hlen hinf
      match s with
      | [] => rw [simplify_nil]; rfl
      | [c] => rw [simplify_single]; rfl
      | c1 :: c2 :: t =>
        by_cases h12 : c1 = 'I' ∧ c2 = 'X'
        · obtain ⟨rfl, rfl⟩ := h12
          have htV : t.head? ≠ some 'V' := by
            cases t with
            | nil => simp
            | cons x xs =>
              intro hx
              simp only [List.head?_cons, Option.some.injEq] at hx
              subst hx
              exact hinf ⟨[], xs, rfl⟩
          rw [simplify, show ('I' :: 'X' :: t) = ['I', 'X'] ++ t from rfl,
              pyReplace_matched _ _ t (by decide),
              pyReplace_IV_skip_Is 9 _ (head_ne_V_pyReplace_IX t htV),
              show pyReplace ['I', 'V'] (Is 4) (pyReplace ['I', 'X'] (Is 9) t) = simplify t
                from rfl,
              ih t (by simp at hlen ⊢; omega) (inf_tail (inf_tail hinf))]
          simp [expandG]
        · by_cases h12v : c1 = 'I' ∧ c2 = 'V'
          · obtain ⟨rfl, rfl⟩ := h12v
            have hnIX : ¬ (['I', 'X'] <+: 'I' :: 'V' :: t) := by
              rw [cons_pre_cons, cons_pre_cons]
              rintro ⟨-, h, -⟩
              exact absurd h (by decide)
            rw [simplify, pyReplace_cons_no _ (by decide) hnIX,
                pyReplace_skip_one 'I' ['X'] (Is 9) 'V' (by decide) t,
                show ('I' :: 'V' :: pyReplace ['I', 'X'] (Is 9) t)
                  = ['I', 'V'] ++ pyReplace ['I', 'X'] (Is 9) t from rfl,
                pyReplace_matched _ _ _ (by decide),
                show pyReplace ['I', 'V'] (Is 4) (pyReplace ['I', 'X'] (Is 9) t) = simplify t
                  from rfl,
                ih t (by simp at hlen ⊢; omega) (inf_tail (inf_tail hinf))]
            simp [expandG]
          · have hnIX : ¬ (['I', 'X'] <+: c1 :: c2 :: t) := by
              rw [cons_pre_cons, cons_pre_cons]
              rintro ⟨hc1, hc2, -⟩
              exact h12 ⟨hc1.symm, hc2.symm⟩
            rw [simplify, pyReplace_cons_no _ (by decide) hnIX]
            have hrec : pyReplace ['I', 'V'] (Is 4)
                (c1 :: pyReplace ['I', 'X'] (Is 9) (c2 :: t))
                = c1 :: simplify (c2 :: t) := by
              by_cases hc1 : c1 = 'I'
              · subst hc1
                have hc2V : c2 ≠ 'V' := fun hv => h12v ⟨rfl, hv⟩
                have hu : (pyReplace ['I', 'X'] (Is 9) (c2 :: t)).head? ≠ some 'V' :=
                  head_ne_V_pyReplace_IX _ (by simpa using hc2V)
                have hskip := pyReplace_IV_skip_Is 1 _ hu
                simpa [Is, List.replicate_succ] using hskip
              · rw [pyReplace_skip_one 'I' ['V'] (Is 4) c1 hc1]
                rfl
            rw [hrec, ih (c2 :: t) (by simp at hlen ⊢; omega) (inf_tail hinf)]
            have he : expandG (c1 :: c2 :: t) = c1 :: expandG (c2 :: t) := by
              simp only [expandG]
              rw [if_neg h12v, if_neg h12]
            rw [he]
  intro s
  exact main s.length s le_rfl

theorem charSum_simplify (s : List Char) (h : ¬ (['I', 'X', 'V'] <:+: s)) :
    charSum (simplify s) = romanValue s := by
  rw [simplify_eq_expandG s h, charSum_expandG]

theorem reps_X (m : ℕ) : reps m ['X'] = Xs m := reps_single m 'X'

theorem reps_V (m : ℕ) : reps m ['V'] = Vs m := reps_single m 'V'

theorem Vs_snoc (n : ℕ) (l : List Char) : Vs n ++ ('V' :: l) = Vs (n + 1) ++ l := by
  induction n with
  | zero => rfl
  | succ m ih => rw [Vs_succ m, List.cons_append, ih, Vs_succ (m + 1), List.cons_append]

theorem head_Is_ne_V (n : ℕ) : (Is n).head? ≠ some 'V' := by
  cases n with
  | zero => simp [Is]
  | succ m =>
    rw [Is_succ m]
    simp

theorem pyReplace_Is_skip_Xs (k : ℕ) (hk : 1 ≤ k) (rep : List Char) (n : ℕ) (l : List Char) :
    pyReplace (Is k) rep (Xs n ++ l) = Xs n ++ pyReplace (Is k) rep l := by
  obtain ⟨k1, rfl⟩ : ∃ k1, k = k1 + 1 := ⟨k - 1, by omega⟩
  exact pyReplace_skip_run 'I' (Is k1) rep 'X' (by decide) n l

theorem pyReplace_Is_skip_Vs (k : ℕ) (hk : 1 ≤ k) (rep : List Char) (n : ℕ) (l : List Char) :
    pyReplace (Is k) rep (Vs n ++ l) = Vs n ++ pyReplace (Is k) rep l := by
  obtain ⟨k1, rfl⟩ : ∃ k1, k = k1 + 1 := ⟨k - 1, by omega⟩
  exact pyReplace_skip_run 'I' (Is k1) rep 'V' (by decide) n l

theorem pyReplace_Is_run_nil (k : ℕ) (hk : 1 ≤ k) (rep : List Char) (n : ℕ) :
    pyReplace (Is k) rep (Is n) = reps (n / k) rep ++ Is (n % k) := by
  have h := pyReplace_run 'I' k hk rep [] (by simp) (pyReplace_nil _ _) n
  simpa using h

theorem pyReplace_VV_skip_Xs (n : ℕ) (l : List Char) :
    pyReplace ['V', 'V'] ['X'] (Xs n ++ l) = Xs n ++ pyReplace ['V', 'V'] ['X'] l :=
  pyReplace_skip_run 'V' ['V'] ['X'] 'X' (by decide) n l

theorem pyReplace_VV_fix_Is (j : ℕ) : pyReplace ['V', 'V'] ['X'] (Is j) = Is j := by
  have h := pyReplace_skip_run 'V' ['V'] ['X'] 'I' (by decide) j []
  simpa [pyReplace_nil] using h

theorem pyReplace_VV_run (rest : List Char) (hhead : rest.head? ≠ some 'V')
    (hrest : pyReplace ['V', 'V'] ['X'] rest = rest) (n : ℕ) :
    pyReplace ['V', 'V'] ['X'] (Vs n ++ rest) = Xs (n / 2) ++ Vs (n % 2) ++ rest := by
  have h := pyReplace_run 'V' 2 (by omega) ['X'] rest hhead hrest n
  rw [reps_X] at h
  exact h

theorem pyReplace_VV_fix_TC (r : ℕ) (hr : r < 10) :
    pyReplace ['V', 'V'] ['X'] (tailC r) = tailC r := by
  interval_cases r <;> decide

theorem TC_head_ne_V (r : ℕ) (hr : r < 10) (h : ¬ (5 ≤ r ∧ r ≤ 8)) :
    (tailC r).head? ≠ some 'V' := by
  interval_cases r
  all_goals first
  | exact absurd (by decide) h
  | decide

theorem pyReplace_VIV_skip_Xs (n : ℕ) (l : List Char) :
    pyReplace ['V', 'I', 'V'] ['I', 'X'] (Xs n ++ l)
      = Xs n ++ pyReplace ['V', 'I', 'V'] ['I', 'X'] l :=
  pyReplace_skip_run 'V' ['I', 'V'] ['I', 'X'] 'X' (by decide) n l

theorem pyReplace_VIV_fix_Is (j : ℕ) :
    pyReplace ['V', 'I', 'V'] ['I', 'X'] (Is j) = Is j := by
  have h := pyReplace_skip_run 'V' ['I', 'V'] ['I', 'X'] 'I' (by decide) j []
  simpa [pyReplace_nil] using h

theorem pyReplace_VIV_cons_V (u : List Char) (hu : ¬ (['I', 'V'] <+: u))
    (hfix : pyReplace ['V', 'I', 'V'] ['I', 'X'] u = u) :
    pyReplace ['V', 'I', 'V'] ['I', 'X'] ('V' :: u) = 'V' :: u := by
  rw [pyReplace_cons_no _ (by decide)
    (by rw [cons_pre_cons]; rintro ⟨-, h⟩; exact hu h), hfix]

theorem pyReplace_VIV_TE (q r : ℕ) (hr : r < 10) :
    pyReplace ['V', 'I', 'V'] ['I', 'X'] (tailE q r) = tailE q r := by
  by_cases hc : q = 0 ∧ 5 ≤ r ∧ r ≤ 8
  · rw [show tailE q r = Is (r - 5) from by rw [tailE, if_neg (by omega), tailD, if_pos hc]]
    exact pyReplace_VIV_fix_Is _
  · rw [show tailE q r = if r = 4 then ['I', 'V'] else tailC r from by rw [tailE, tailD, if_neg hc]]
    interval_cases r <;> decide

theorem not_IV_pre_Is (j : ℕ) : ¬ (['I', 'V'] <+: Is j) := by
  cases j with
  | zero =>
    intro h
    have := h.length_le
    simp [Is] at this
  | succ m =>
    rw [Is_succ, cons_pre_cons]
    rintro ⟨-, h⟩
    cases m with
    | zero =>
      have := h.length_le
      simp [Is] at this
    | succ m1 =>
      rw [Is_succ, cons_pre_cons] at h
      exact absurd h.1 (by decide)

theorem not_IV_pre_Xs_TE (q r : ℕ) (hr : r < 10) (h4 : ¬ (q = 0 ∧ r = 4)) :
    ¬ (['I', 'V'] <+: Xs q ++ tailE q r) := by
  cases q with
  | zero =>
    have hr4 : r ≠ 4 := fun h => h4 ⟨rfl, h⟩
    rw [show (Xs 0 : List Char) = [] from rfl, List.nil_append]
    by_cases hc : (0 : ℕ) = 0 ∧ 5 ≤ r ∧ r ≤ 8
    · rw [show tailE 0 r = Is (r - 5) from by rw [tailE, if_neg (by omega), tailD, if_pos hc]]
      exact not_IV_pre_Is _
    · rw [show tailE 0 r = if r = 4 then ['I', 'V'] else tailC r from by rw [tailE, tailD, if_neg hc]]
      interval_cases r
      all_goals first
      | exact absurd rfl hr4
      | decide
  | succ qq =>
    rw [Xs_succ, List.cons_append, cons_pre_cons]
    rintro ⟨h, -⟩
    exact absurd h (by decide)

theorem pyReplace_Is9_Is (r : ℕ) (hr : r < 10) :
    pyReplace (Is 9) ['I', 'X'] (Is r) = tailB r := by
  interval_cases r <;> decide

theorem pyReplace_Is5_TB (r : ℕ) (hr : r < 10) :
    pyReplace (Is 5) ['V'] (tailB r) = tailC r := by
  interval_cases r <;> decide

theorem pyReplace_Is4_TC (r : ℕ) (hr : r < 10) :
    pyReplace (Is 4) ['I', 'V'] (tailC r) = if r = 4 then ['I', 'V'] else tailC r := by
  interval_cases r <;> decide

theorem stepA (x v i : ℕ) :
    pyReplace (Is 10) ['X'] (Xs x ++ (Vs v ++ Is i))
      = Xs x ++ (Vs v ++ (Xs (i / 10) ++ Is (i % 10))) := by
  rw [pyReplace_Is_skip_Xs 10 (by omega) ['X'] x _,
      pyReplace_Is_skip_Vs 10 (by omega) ['X'] v _,
      pyReplace_Is_run_nil 10 (by omega) ['X'] i, reps_X]

theorem stepB (x v q r : ℕ) (hr : r < 10) :
    pyReplace (Is 9) ['I', 'X'] (Xs x ++ (Vs v ++ (Xs q ++ Is r)))
      = Xs x ++ (Vs v ++ (Xs q ++ tailB r)) := by
  rw [pyReplace_Is_skip_Xs 9 (by omega) _ x _, pyReplace_Is_skip_Vs 9 (by omega) _ v _,
      pyReplace_Is_skip_Xs 9 (by omega) _ q _, pyReplace_Is9_Is r hr]

theorem stepC (x v q r : ℕ) (hr : r < 10) :
    pyReplace (Is 5) ['V'] (Xs x ++ (Vs v ++ (Xs q ++ tailB r)))
      = Xs x ++ (Vs v ++ (Xs q ++ tailC r)) := by
  rw [pyReplace_Is_skip_Xs 5 (by omega) _ x _, pyReplace_Is_skip_Vs 5 (by omega) _ v _,
      pyReplace_Is_skip_Xs 5 (by omega) _ q _, pyReplace_Is5_TB r hr]

theorem stepD (x v q r : ℕ) (hr : r < 10) :
    pyReplace ['V', 'V'] ['X'] (Xs x ++ (Vs v ++ (Xs q ++ tailC r)))
      = Xs x ++ (Xs (runW v q r / 2) ++ (Vs (runW v q r % 2) ++ (Xs q ++ tailD q r))) := by
  rw [pyReplace_VV_skip_Xs x _]
  by_cases hc : q = 0 ∧ 5 ≤ r ∧ r ≤ 8
  · rw [show runW v q r = v + 1 from by rw [runW, if_pos hc],
        show tailD q r = Is (r - 5) from by rw [tailD, if_pos hc]]
    obtain ⟨hq0, hr58⟩ := hc
    subst hq0
    have hTC : tailC r = 'V' :: Is (r - 5) := by
      rw [tailC, if_neg (by omega), if_pos hr58.1]
    rw [hTC, show (Xs 0 : List Char) = [] from rfl, List.nil_append, List.nil_append,
        Vs_snoc v _,
        pyReplace_VV_run (Is (r - 5)) (head_Is_ne_V _) (pyReplace_VV_fix_Is _) (v + 1)]
    simp [List.append_assoc]
  · rw [show runW v q r = v from by rw [runW, if_neg hc],
        show tailD q r = tailC r from by rw [tailD, if_neg hc]]
    have hhead : (Xs q ++ tailC r).head? ≠ some 'V' := by
      cases q with
      | zero =>
        rw [show (Xs 0 : List Char) = [] from rfl, List.nil_append]
        exact TC_head_ne_V r hr (fun hr58 => hc ⟨rfl, hr58⟩)
      | succ qq =>
        rw [Xs_succ]
        simp
    have hfix : pyReplace ['V', 'V'] ['X'] (Xs q ++ tailC r) = Xs q ++ tailC r := by
      rw [pyReplace_VV_skip_Xs, pyReplace_VV_fix_TC r hr]
    rw [pyReplace_VV_run _ hhead hfix v]
    simp [List.append_assoc]

theorem stepE (x a e q r : ℕ) (hr : r < 10) :
    pyReplace (Is 4) ['I', 'V'] (Xs x ++ (Xs a ++ (Vs e ++ (Xs q ++ tailD q r))))
      = Xs x ++ (Xs a ++ (Vs e ++ (Xs q ++ tailE q r))) := by
  rw [pyReplace_Is_skip_Xs 4 (by omega) _ x _, pyReplace_Is_skip_Xs 4 (by omega) _ a _,
      pyReplace_Is_skip_Vs 4 (by omega) _ e _, pyReplace_Is_skip_Xs 4 (by omega) _ q _]
  by_cases hc : q = 0 ∧ 5 ≤ r ∧ r ≤ 8
  · rw [show tailD q r = Is (r - 5) from by rw [tailD, if_pos hc],
        show tailE q r = Is (r - 5) from by rw [tailE, if_neg (by omega), tailD, if_pos hc],
        pyReplace_Is_run_nil 4 (by omega) _ (r - 5),
        show (r - 5) / 4 = 0 from by omega, show (r - 5) % 4 = r - 5 from by omega,
        reps_zero]
    simp
  · rw [show tailD q r = tailC r from by rw [tailD, if_neg hc], pyReplace_Is4_TC r hr,
        show tailE q r = if r = 4 then ['I', 'V'] else tailC r from by rw [tailE, tailD, if_neg hc]]

theorem stepF (x a e q r : ℕ) (hr : r < 10) (he : e ≤ 1) :
    pyReplace ['V', 'I', 'V'] ['I', 'X'] (Xs x ++ (Xs a ++ (Vs e ++ (Xs q ++ tailE q r))))
      = if e = 1 ∧ q = 0 ∧ r = 4 then Xs x ++ (Xs a ++ ['I', 'X'])
        else Xs x ++ (Xs a ++ (Vs e ++ (Xs q ++ tailE q r))) := by
  rw [pyReplace_VIV_skip_Xs x _, pyReplace_VIV_skip_Xs a _]
  by_cases hcase : e = 1 ∧ q = 0 ∧ r = 4
  · obtain ⟨he1, hq0, hr4⟩ := hcase
    subst he1
    subst hq0
    subst hr4
    rw [if_pos ⟨rfl, rfl, rfl⟩,
        show tailE 0 4 = ['I', 'V'] from rfl,
        show (Vs 1 ++ (Xs 0 ++ ['I', 'V'])) = ['V', 'I', 'V'] from rfl,
        show pyReplace ['V', 'I', 'V'] ['I', 'X'] ['V', 'I', 'V'] = ['I', 'X'] from by decide]
  · rw [if_neg hcase]
    have hfix : pyReplace ['V', 'I', 'V'] ['I', 'X'] (Xs q ++ tailE q r) = Xs q ++ tailE q r := by
      rw [pyReplace_VIV_skip_Xs, pyReplace_VIV_TE q r hr]
    by_cases he : e = 1
    · subst he
      have h4 : ¬ (q = 0 ∧ r = 4) := fun ⟨a1, a2⟩ => hcase ⟨rfl, a1, a2⟩
      rw [show Vs 1 ++ (Xs q ++ tailE q r) = 'V' :: (Xs q ++ tailE q r) from rfl,
          pyReplace_VIV_cons_V _ (not_IV_pre_Xs_TE q r hr h4) hfix]
    · have he0 : e = 0 := by omega
      subst he0
      rw [show (Vs 0 : List Char) = [] from rfl, List.nil_append, hfix]

theorem romanValue_Vs_append (n : ℕ) (l : List Char) :
    romanValue (Vs n ++ l) = 5 * n + romanValue l := by
  induction n with
  | zero => simp [Vs]
  | succ m ih =>
    rw [Vs_succ, List.cons_append, romanValue_V_cons, ih]
    omega

theorem romanValue_tailE (q r : ℕ) (hr : r < 10) :
    romanValue (tailE q r) = if q = 0 ∧ 5 ≤ r ∧ r ≤ 8 then r - 5 else r := by
  by_cases hc : q = 0 ∧ 5 ≤ r ∧ r ≤ 8
  · rw [show tailE q r = Is (r - 5) from by rw [tailE, if_neg (by omega), tailD, if_pos hc],
        romanValue_Is, if_pos hc]
  · rw [show tailE q r = if r = 4 then ['I', 'V'] else tailC r from by
        rw [tailE, tailD, if_neg hc],
        if_neg hc]
    interval_cases r <;> decide

theorem romanValue_post_corrections (s : List Char) :
    romanValue (if (if s = ['V', 'X'] then ['X', 'V'] else s) = ['V', 'I', 'X']
      then ['X', 'I', 'V'] else (if s = ['V', 'X'] then ['X', 'V'] else s)) = romanValue s := by
  by_cases h1 : s = ['V', 'X']
  · subst h1
    decide
  · rw [if_neg h1]
    by_cases h2 : s = ['V', 'I', 'X']
    · subst h2
      decide
    · rw [if_neg h2]

theorem romanValue_canonicalise_runs (x v i : ℕ) :
    romanValue (canonicalise (Xs x ++ (Vs v ++ Is i))) = 10 * x + 5 * v + i := by
  obtain ⟨q, r, hr, rfl⟩ : ∃ q r, r < 10 ∧ i = 10 * q + r :=
    ⟨i / 10, i % 10, by omega, by omega⟩
  simp only [canonicalise]
  rw [stepA x v (10 * q + r),
      show (10 * q + r) / 10 = q from by omega,
      show (10 * q + r) % 10 = r from by omega,
      stepB x v q r hr, stepC x v q r hr, stepD x v q r hr,
      stepE x (runW v q r / 2) (runW v q r % 2) q r hr,
      stepF x (runW v q r / 2) (runW v q r % 2) q r hr (by omega)]
  rw [romanValue_post_corrections]
  by_cases hcase : runW v q r % 2 = 1 ∧ q = 0 ∧ r = 4
  · rw [if_pos hcase]
    obtain ⟨hodd, hq0, hr4⟩ := hcase
    subst hq0
    subst hr4
    have hw : runW v 0 4 = v := by rw [runW, if_neg (by omega)]
    rw [hw] at hodd
    rw [hw, romanValue_Xs_append, romanValue_Xs_append,
        show romanValue ['I', 'X'] = 9 from by decide]
    omega
  · rw [if_neg hcase, romanValue_Xs_append, romanValue_Xs_append, romanValue_Vs_append,
        romanValue_Xs_append, romanValue_tailE q r hr]
    by_cases hc : q = 0 ∧ 5 ≤ r ∧ r ≤ 8
    · rw [if_pos hc, show runW v q r = v + 1 from by rw [runW, if_pos hc]]
      omega
    · rw [if_neg hc, show runW v q r = v from by rw [runW, if_neg hc]]
      omega

theorem count_IVX (l : List Char) (h : ∀ c ∈ l, c ∈ ROMAN_NUMERALS) :
    l.Perm (Xs (l.count 'X') ++ (Vs (l.count 'V') ++ Is (l.count 'I'))) := by
  rw [List.perm_iff_count]
  intro a
  rw [List.count_append, List.count_append]
  by_cases hI : a = 'I'
  · subst hI
    simp [Xs, Vs, Is, List.count_replicate]
  · by_cases hV : a = 'V'
    · subst hV
      simp [Xs, Vs, Is, List.count_replicate]
    · by_cases hX : a = 'X'
      · subst hX
        simp [Xs, Vs, Is, List.count_replicate]
      · have h0 : l.count a = 0 := by
          rw [List.count_eq_zero]
          intro hmem
          have hmem2 := h a hmem
          simp [ROMAN_NUMERALS] at hmem2
          rcases hmem2 with rfl | rfl | rfl
          · exact hI rfl
          · exact hV rfl
          · exact hX rfl
        simp [Xs, Vs, Is, List.count_replicate, h0, Ne.symm hI, Ne.symm hV, Ne.symm hX]

theorem sortedDesc_counts (l : List Char) (h : ∀ c ∈ l, c ∈ ROMAN_NUMERALS) :
    sortedDesc l = Xs (l.count 'X') ++ (Vs (l.count 'V') ++ Is (l.count 'I')) := by
  apply List.eq_of_perm_of_sorted
      ((List.perm_insertionSort descR l).trans (count_IVX l h))
      (List.sorted_insertionSort descR l)
  show List.Pairwise descR _
  apply List.pairwise_append.mpr
  refine ⟨List.pairwise_replicate.mpr (Or.inr (le_refl _)), ?_, ?_⟩
  · apply List.pairwise_append.mpr
    refine ⟨List.pairwise_replicate.mpr (Or.inr (le_refl _)),
            List.pairwise_replicate.mpr (Or.inr (le_refl _)), ?_⟩
    intro a ha b hb
    have ha2 : a = 'V' := List.eq_of_mem_replicate ha
    have hb2 : b = 'I' := List.eq_of_mem_replicate hb
    subst ha2
    subst hb2
    decide
  · intro a ha b hb
    have ha2 : a = 'X' := List.eq_of_mem_replicate ha
    subst ha2
    rcases List.mem_append.mp hb with hb | hb
    · have hb2 : b = 'V' := List.eq_of_mem_replicate hb
      subst hb2
      decide
    · have hb2 : b = 'I' := List.eq_of_mem_replicate hb
      subst hb2
      decide

theorem charSum_eq_counts (l : List Char) (h : ∀ c ∈ l, c ∈ ROMAN_NUMERALS) :
    charSum l = 10 * l.count 'X' + 5 * l.count 'V' + l.count 'I' := by
  induction l with
  | nil => simp [charSum]
  | cons c t ih =>
    have hc := h c (by simp)
    have ht : ∀ d ∈ t, d ∈ ROMAN_NUMERALS := fun d hd => h d (by simp [hd])
    rw [charSum_cons, ih ht]
    simp only [ROMAN_NUMERALS, List.mem_cons, List.mem_singleton] at hc
    rcases hc with rfl | rfl | hc
    · simp [charValue, List.count_cons]
      omega
    · simp [charValue, List.count_cons]
      omega
    · simp only [List.not_mem_nil, or_false] at hc
      subst hc
      simp [charValue, List.count_cons]
      omega

theorem mem_ite_list (P : Prop) [Decidable P] (t e : List Char) (c : Char)
    (h : c ∈ (if P then t else e)) : c ∈ t ∨ c ∈ e := by
  split at h
  · exact Or.inl h
  · exact Or.inr h

theorem mem_pyReplaceF (pat rep : List Char) :
    ∀ f s c, c ∈ pyReplaceF pat rep f s → c ∈ s ∨ c ∈ rep := by
  intro f
  induction f with
  | zero =>
    intro s c hc
    exact Or.inl hc
  | succ g ih =>
    intro s c hc
    by_cases hp : pat = []
    · simp only [pyReplaceF, if_pos hp] at hc
      exact Or.inl hc
    · by_cases hm : pat <+: s
      · simp only [pyReplaceF, if_neg hp, if_pos hm] at hc
        rcases List.mem_append.mp hc with hc | hc
        · exact Or.inr hc
        · rcases ih _ c hc with hc | hc
          · exact Or.inl (List.mem_of_mem_drop hc)
          · exact Or.inr hc
      · cases s with
        | nil =>
          simp only [pyReplaceF, if_neg hp, if_neg hm] at hc
          exact absurd hc (by simp)
        | cons d ds =>
          simp only [pyReplaceF, if_neg hp, if_neg hm] at hc
          rcases List.mem_cons.mp hc with rfl | hc
          · exact Or.inl (List.mem_cons_self _ _)
          · rcases ih ds c hc with hc | hc
            · exact Or.inl (List.mem_cons_of_mem _ hc)
            · exact Or.inr hc

theorem mem_canonicalise (l : List Char) (c : Char) (h : c ∈ canonicalise l) :
    c ∈ l ∨ c ∈ ROMAN_NUMERALS := by
  have hstep : ∀ (pat rep s : List Char), (∀ d ∈ rep, d ∈ ROMAN_NUMERALS) →
      (∀ d ∈ s, d ∈ l ∨ d ∈ ROMAN_NUMERALS) →
      ∀ d ∈ pyReplace pat rep s, d ∈ l ∨ d ∈ ROMAN_NUMERALS := by
    intro pat rep s hrep hs d hd
    rcases mem_pyReplaceF pat rep s.length s d hd with h2 | h2
    · exact hs d h2
    · exact Or.inr (hrep d h2)
  simp only [canonicalise] at h
  rcases mem_ite_list _ _ _ _ h with h | h
  · simp only [List.mem_cons, List.not_mem_nil, or_false] at h
    right
    rcases h with rfl | rfl | rfl <;> decide
  · rcases mem_ite_list _ _ _ _ h with h | h
    · simp only [List.mem_cons, List.not_mem_nil, or_false] at h
      right
      rcases h with rfl | rfl <;> decide
    · refine hstep _ _ _ (by decide) ?_ c h
      intro d1 hd1
      refine hstep _ _ _ (by decide) ?_ d1 hd1
      intro d2 hd2
      refine hstep _ _ _ (by decide) ?_ d2 hd2
      intro d3 hd3
      refine hstep _ _ _ (by decide) ?_ d3 hd3
      intro d4 hd4
      refine hstep _ _ _ (by decide) ?_ d4 hd4
      intro d5 hd5
      refine hstep _ _ _ (by decide) ?_ d5 hd5
      intro d6 hd6
      exact Or.inl hd6

/-- C1 (amended): for every pair of string inputs that pass validation and in
which the substring "IXV" does not occur, add returns a string whose value
under the Roman-to-integer mapping (subtractive pairs IV and IX only) equals
the sum of the values of the two inputs. -/
theorem add_value_correct_of_no_IXV (a b : List Char)
    (hval : ∀ c ∈ simplify a ++ simplify b, c ∈ ROMAN_NUMERALS)
    (hna : ¬ (['I', 'X', 'V'] <:+: a)) (hnb : ¬ (['I', 'X', 'V'] <:+: b)) :
    Except.map romanValue (add (.str a) (.str b)) = .ok (romanValue a + romanValue b) := by
  have hadd : add (.str a) (.str b)
      = .ok (canonicalise (sortedDesc (simplify a ++ simplify b))) := by
    simp only [add]
    rw [if_pos hval]
  have hkey : romanValue (canonicalise (sortedDesc (simplify a ++ simplify b)))
      = romanValue a + romanValue b := by
    rw [sortedDesc_counts _ hval, romanValue_canonicalise_runs]
    have h1 := charSum_eq_counts (simplify a ++ simplify b) hval
    have h2 : charSum (simplify a ++ simplify b) = romanValue a + romanValue b := by
      rw [charSum_append, charSum_simplify a hna, charSum_simplify b hnb]
    omega
  rw [hadd]
  simp only [Except.map]
  rw [hkey]

/-- Witness for C1 at the concrete valid pair "IX", "IX". -/
theorem add_value_correct_of_no_IXV_witness :
    Except.map romanValue (add (.str ['I', 'X']) (.str ['I', 'X']))
      = .ok (romanValue ['I', 'X'] + romanValue ['I', 'X']) :=
  add_value_correct_of_no_IXV ['I', 'X'] ['I', 'X'] (by decide) (by decide) (by decide)

/-- C1 counterexample: the input "IXV" passes validation, yet the value of
add("IXV", "I") is 13 while value("IXV") plus value("I") is 15, because the
"IV" created by expanding "IX" before the final 'V' is expanded again. -/
theorem add_value_IXV_counterexample :
    (∀ c ∈ simplify ['I', 'X', 'V'] ++ simplify ['I'], c ∈ ROMAN_NUMERALS)
    ∧ Except.map romanValue (add (.str ['I', 'X', 'V']) (.str ['I'])) = .ok 13
    ∧ romanValue ['I', 'X', 'V'] + romanValue ['I'] = 15 := by decide

/-- C2 (amended): on canonical inputs with values and sum in 1 to 39, add
always returns a string of the correct value, and it returns the canonical
numeral exactly when the pair is not a badPair (one units digit 9, the other
in 5 to 8, apart from the tens-free sums 5 plus 9 and 6 plus 9). -/
theorem add_canonical_iff_goodPair (m n : ℕ) (hm : m ∈ List.range 40)
    (hn : n ∈ List.range 40) (hm1 : 1 ≤ m) (hn1 : 1 ≤ n) (hsum : m + n ≤ 39) :
    Except.map romanValue (add (.str (toRoman m)) (.str (toRoman n))) = .ok (m + n)
    ∧ (add (.str (toRoman m)) (.str (toRoman n)) = .ok (toRoman (m + n))
        ↔ ¬ badPair m n) := by
  have hdec : ∀ m2 ∈ List.range 40, ∀ n2 ∈ List.range 40,
      1 ≤ m2 → 1 ≤ n2 → m2 + n2 ≤ 39 →
      (Except.map romanValue (add (.str (toRoman m2)) (.str (toRoman n2))) = .ok (m2 + n2)
      ∧ (add (.str (toRoman m2)) (.str (toRoman n2)) = .ok (toRoman (m2 + n2))
          ↔ ¬ badPair m2 n2)) := by decide
  exact hdec m hm n hn hm1 hn1 hsum

/-- Witness for C2 at the concrete pair 10 and 4. -/
theorem add_canonical_iff_goodPair_witness :
    Except.map romanValue (add (.str (toRoman 10)) (.str (toRoman 4))) = .ok (10 + 4)
    ∧ (add (.str (toRoman 10)) (.str (toRoman 4)) = .ok (toRoman (10 + 4))
        ↔ ¬ badPair 10 4) :=
  add_canonical_iff_goodPair 10 4 (by decide) (by decide) (by decide) (by decide) (by decide)

/-- C2 counterexample: the canonical inputs "XV" (15) and "IX" (9) have sum 24
in range, yet add returns "XVIX" rather than the canonical "XXIV". -/
theorem add_not_canonical_XV_IX :
    toRoman 15 = ['X', 'V'] ∧ toRoman 9 = ['I', 'X']
    ∧ add (.str (toRoman 15)) (.str (toRoman 9)) = .ok ['X', 'V', 'I', 'X']
    ∧ toRoman (15 + 9) = ['X', 'X', 'I', 'V']
    ∧ add (.str (toRoman 15)) (.str (toRoman 9)) ≠ .ok (toRoman (15 + 9)) := by decide

/-- C3: add raises its single error exactly when an argument is not a string
or some character of the concatenated expansions is outside the alphabet;
since the result type is either this error or a returned string, there is no
other error condition and no output accompanies an error. -/
theorem add_error_iff (a b : PyVal) :
    add a b = .error .valueError ↔
      (a.isStr = false ∨ b.isStr = false ∨
        ∃ sa sb, a = .str sa ∧ b = .str sb ∧
          ∃ c ∈ simplify sa ++ simplify sb, c ∉ ROMAN_NUMERALS) := by
  cases a with
  | nonString t => cases b <;> simp [add, PyVal.isStr]
  | str sa =>
    cases b with
    | nonString t => simp [add, PyVal.isStr]
    | str sb =>
      simp only [add, PyVal.isStr]
      by_cases hv : ∀ c ∈ simplify sa ++ simplify sb, c ∈ ROMAN_NUMERALS
      · rw [if_pos hv]
        constructor
        · intro hcontra
          simp at hcontra
        · rintro (h | h | ⟨sa2, sb2, heq1, heq2, c, hc, hnotc⟩)
          · simp at h
          · simp at h
          · injection heq1 with h1
            injection heq2 with h2
            subst h1
            subst h2
            exact absurd (hv c hc) hnotc
      · rw [if_neg hv]
        push_neg at hv
        obtain ⟨c, hc, hnc⟩ := hv
        constructor
        · intro _
          exact Or.inr (Or.inr ⟨sa, sb, rfl, rfl, c, hc, hnc⟩)
        · intro _
          rfl

/-- C4: add is commutative on all inputs, strings or not; errors and results
agree because validation and the sorted merge are order-insensitive. -/
theorem add_commutative (a b : PyVal) : add a b = add b a := by
  cases a with
  | nonString t =>
    cases b with
    | nonString u => rfl
    | str sb => rfl
  | str sa =>
    cases b with
    | nonString u => rfl
    | str sb =>
      simp only [add]
      have himp : ∀ u w : List Char, (∀ c ∈ u ++ w, c ∈ ROMAN_NUMERALS) →
          ∀ c ∈ w ++ u, c ∈ ROMAN_NUMERALS := by
        intro u w hh c hc
        rw [List.mem_append] at hc
        exact hh c (List.mem_append.mpr hc.symm)
      by_cases hv : ∀ c ∈ simplify sa ++ simplify sb, c ∈ ROMAN_NUMERALS
      · rw [if_pos hv, if_pos (himp _ _ hv)]
        have hsort : sortedDesc (simplify sa ++ simplify sb)
            = sortedDesc (simplify sb ++ simplify sa) :=
          List.eq_of_perm_of_sorted
            ((List.perm_insertionSort descR _).trans
              (List.perm_append_comm.trans (List.perm_insertionSort descR _).symm))
            (List.sorted_insertionSort descR _) (List.sorted_insertionSort descR _)
        rw [hsort]
      · rw [if_neg hv, if_neg (fun hh => hv (himp _ _ hh))]

/-- C5: the canonicalization step of the code is exactly the application of
the six substitution rules of the spec, in the given priority order, each as
a full left-to-right non-overlapping replacement, followed by the two fixed
whole-string post-corrections. -/
theorem canonicalise_eq_spec_rules (s : List Char) :
    canonicalise s = postCorrect (applyRules s) := by
  have hmain : ∀ t : List Char,
      (if (if t = ['V', 'X'] then ['X', 'V'] else t) = ['V', 'I', 'X'] then ['X', 'I', 'V']
        else (if t = ['V', 'X'] then ['X', 'V'] else t)) = postCorrect t := by
    intro t
    by_cases h1 : t = ['V', 'X']
    · subst h1
      decide
    · by_cases h2 : t = ['V', 'I', 'X']
      · subst h2
        decide
      · rw [if_neg h1, if_neg h2, postCorrect, if_neg h1, if_neg h2]
  exact hmain (applyRules s)

/-- C6 (amended): each input is expanded by two sequential left-to-right
non-overlapping replacements, "IX" to nine 'I' first and then "IV" to four
'I'; a replacement never rescans its own output (so "IVV" keeps the "IV" its
own replacement creates, and "IVX" keeps the "IX" it creates), but an "IV"
that the "IX" replacement creates IS consumed by the later "IV" replacement,
as "IXV" expanding to twelve 'I' shows. -/
theorem simplify_two_pass_characterisation :
    (∀ s, simplify s = pyReplace ['I', 'V'] (Is 4) (pyReplace ['I', 'X'] (Is 9) s))
    ∧ simplify ['I', 'V', 'V'] = 'I' :: 'I' :: 'I' :: 'I' :: ['V']
    ∧ simplify ['I', 'V', 'X'] = 'I' :: 'I' :: 'I' :: 'I' :: ['X']
    ∧ simplify ['I', 'X', 'V'] = Is 12 :=
  ⟨fun _ => rfl, by decide, by decide, by decide⟩

/-- C6 counterexample: no "IV" occurs in "IXV", so under the claim the second
replacement would change nothing after the first, yet simplify("IXV") differs
from the result of the "IX" replacement alone: the newly created "IV" is
re-expanded. -/
theorem simplify_reexpands_new_IV :
    ¬ (['I', 'V'] <:+: ['I', 'X', 'V'])
    ∧ simplify ['I', 'X', 'V'] ≠ pyReplace ['I', 'X'] (Is 9) ['I', 'X', 'V']
    ∧ simplify ['I', 'X', 'V'] = Is 12 := by decide

/-- C7: on an alphabet-valid merged string, the sorting step produces a
permutation of its input arranged in non-increasing symbol value order under
X above V above I. -/
theorem sortedDesc_value_order_perm (l : List Char)
    (h : ∀ c ∈ l, c ∈ ROMAN_NUMERALS) :
    List.Sorted (fun a b => charValue b ≤ charValue a) (sortedDesc l)
    ∧ (sortedDesc l).Perm l := by
  refine ⟨?_, List.perm_insertionSort descR l⟩
  rw [sortedDesc_counts l h]
  show List.Pairwise _ _
  apply List.pairwise_append.mpr
  refine ⟨List.pairwise_replicate.mpr (Or.inr (by decide)), ?_, ?_⟩
  · apply List.pairwise_append.mpr
    refine ⟨List.pairwise_replicate.mpr (Or.inr (by decide)),
            List.pairwise_replicate.mpr (Or.inr (by decide)), ?_⟩
    intro a ha b hb
    have ha2 : a = 'V' := List.eq_of_mem_replicate ha
    have hb2 : b = 'I' := List.eq_of_mem_replicate hb
    subst ha2
    subst hb2
    decide
  · intro a ha b hb
    have ha2 : a = 'X' := List.eq_of_mem_replicate ha
    subst ha2
    rcases List.mem_append.mp hb with hb | hb
    · have hb2 : b = 'V' := List.eq_of_mem_replicate hb
      subst hb2
      decide
    · have hb2 : b = 'I' := List.eq_of_mem_replicate hb
      subst hb2
      decide

/-- Witness for C7 at the concrete merged string "IVX". -/
theorem sortedDesc_value_order_perm_witness :
    List.Sorted (fun a b => charValue b ≤ charValue a) (sortedDesc ['I', 'V', 'X'])
    ∧ (sortedDesc ['I', 'V', 'X']).Perm ['I', 'V', 'X'] :=
  sortedDesc_value_order_perm ['I', 'V', 'X'] (by decide)

/-- C8: the seven concrete scenarios of the spec, evaluated on the code. -/
theorem add_concrete_scenarios :
    add (.str ['I']) (.str ['I']) = .ok ['I', 'I']
    ∧ add (.str ['I', 'I', 'I']) (.str ['I']) = .ok ['I', 'V']
    ∧ add (.str ['I', 'V']) (.str ['I']) = .ok ['V']
    ∧ add (.str ['V']) (.str ['I', 'V']) = .ok ['I', 'X']
    ∧ add (.str ['I', 'X']) (.str ['I']) = .ok ['X']
    ∧ add (.str ['X']) (.str ['I', 'V']) = .ok ['X', 'I', 'V']
    ∧ add (.str ['I', 'X']) (.str ['I', 'X']) = .ok ['X', 'V', 'I', 'I', 'I'] := by decide

/-- C9: two empty strings are accepted and the empty string is returned. -/
theorem add_empty_strings : add (.str []) (.str []) = .ok [] := by decide

/-- C10: whenever add returns without an error, every character of the
returned string is one of 'I', 'V', 'X'. -/
theorem add_output_alphabet (a b : PyVal) (out : List Char)
    (h : add a b = .ok out) : ∀ c ∈ out, c ∈ ROMAN_NUMERALS := by
  cases a with
  | nonString t => simp [add] at h
  | str sa =>
    cases b with
    | nonString t => simp [add] at h
    | str sb =>
      simp only [add] at h
      by_cases hv : ∀ c ∈ simplify sa ++ simplify sb, c ∈ ROMAN_NUMERALS
      · rw [if_pos hv] at h
        simp only [Except.ok.injEq] at h
        subst h
        intro c hc
        rcases mem_canonicalise _ c hc with hc2 | hc2
        · exact hv c ((List.perm_insertionSort descR _).mem_iff.mp hc2)
        · exact hc2
      · rw [if_neg hv] at h
        simp at h

/-- Witness for C10 at the concrete call add("I", "I"). -/
theorem add_output_alphabet_witness : 'I' ∈ ROMAN_NUMERALS :=
  add_output_alphabet (.str ['I']) (.str ['I']) ['I', 'I'] (by decide) 'I' (by decide)
